import Mathlib

set_option maxHeartbeats 1000000

/- Shallow embedding of the NCGenerator repository (data_classes.py and
   generator.py).  Pixel coordinates are modelled as ℤ, pixel intensities as ℕ,
   and millimetre quantities (Python floats) as ℚ.  Python functions that can
   raise are modelled with Option/Except. -/

/-- Pixel coordinate pair, source class `Point` (data_classes.py). -/
structure Point where
  x : ℤ
  y : ℤ
deriving DecidableEq, Repr

/-- Source `Point.is_neighbor`: within Chebyshev distance 1 and distinct. -/
def Point.is_neighbor (self other : Point) : Bool :=
  if |self.x - other.x| ≤ 1 ∧ |self.y - other.y| ≤ 1 ∧ self ≠ other then true else false

/-- Source `Point.is_adjacent`: sharing an edge (4-neighbourhood). -/
def Point.is_adjacent (self other : Point) : Bool :=
  if (|self.x - other.x| = 1 ∧ self.y = other.y) ∨ (self.x = other.x ∧ |self.y - other.y| = 1)
  then true else false

/-- Source `Point.to_tuple`. -/
def Point.to_tuple (self : Point) : ℤ × ℤ := (self.x, self.y)

/-- A PIL image as the source uses it: a mode string, dimensions, and the
    pixel grid `data[y][x]`.  In mode "1", `getpixel` yields 0 (line) or
    255 (background). -/
structure PImg where
  mode : String
  width : ℕ
  height : ℕ
  data : List (List ℕ)
deriving DecidableEq, Repr

/-- Model of `pil_img.getpixel((x, y))`.  Every call site in the source guards
    the coordinates to be in bounds, so the out-of-range default is never
    consulted on well-formed images. -/
def PImg.getpixel (img : PImg) (x y : ℤ) : ℕ :=
  (img.data.getD y.toNat []).getD x.toNat 0

/-- Model of `pil_img.putpixel((x, y), v)`. -/
def PImg.putpixel (img : PImg) (x y : ℤ) (v : ℕ) : PImg :=
  { img with data := img.data.set y.toNat ((img.data.getD y.toNat []).set x.toNat v) }

/-- A well-formed mode-"1" image: every stored intensity is 0 or 255. -/
def PImg.binary (img : PImg) : Prop :=
  ∀ row ∈ img.data, ∀ v ∈ row, v = 0 ∨ v = 255

instance (img : PImg) : Decidable img.binary := by
  unfold PImg.binary; exact inferInstance

/-- Reading a neighbour with the out-of-bounds test of `is_pixel_unneeded`
    (data_classes.py lines 625-634): out-of-bounds reads count as 255. -/
def guarded_read (img : PImg) (n : ℤ × ℤ) : ℕ :=
  if n.1 < 0 ∨ (img.width : ℤ) ≤ n.1 ∨ n.2 < 0 ∨ (img.height : ℤ) ≤ n.2 then 255
  else img.getpixel n.1 n.2

/-- The eight neighbour positions in the order built by `is_pixel_unneeded`
    (lines 614-623). -/
def neigh_offsets (pixel : ℤ × ℤ) : List (ℤ × ℤ) :=
  [ (pixel.1, pixel.2 + 1), (pixel.1 + 1, pixel.2 + 1), (pixel.1 + 1, pixel.2),
    (pixel.1 + 1, pixel.2 - 1), (pixel.1, pixel.2 - 1), (pixel.1 - 1, pixel.2 - 1),
    (pixel.1 - 1, pixel.2), (pixel.1 - 1, pixel.2 + 1) ]

/-- The `neigh_values` list of `is_pixel_unneeded`. -/
def neigh_values (img : PImg) (pixel : ℤ × ℤ) : List ℕ :=
  (neigh_offsets pixel).map (guarded_read img)

/-- The `segments` counter of `is_pixel_unneeded` (lines 646-649):
    `for i in range(len(vs)): if vs[i-1] == 0 and vs[i] == 255` — Python's
    `vs[-1]` is the last element, so the scan is cyclic. -/
def segments_count (vs : List ℕ) : ℕ :=
  ((List.range vs.length).filter (fun i =>
    decide (vs.getD ((i + vs.length - 1) % vs.length) 0 = 0 ∧ vs.getD i 0 = 255))).length

/-- The decision of `is_pixel_unneeded` as a function of the neighbour-value
    list (lines 636-654). -/
def unneeded_of_values (nv : List ℕ) : Bool :=
  if nv.count 0 ≤ 1 then false
  else if nv.count 255 ≤ 1 then false
  else if 2 ≤ segments_count nv then false
  else true

/-- Source helper `is_pixel_unneeded` (data_classes.py lines 609-654). -/
def is_pixel_unneeded (pil_img : PImg) (pixel : ℤ × ℤ) : Bool :=
  unneeded_of_values (neigh_values pil_img pixel)

/-- The spec's cyclic neighbour order N, NE, E, SE, S, SW, W, NW for claim C4,
    in image convention (y grows downward, so N is `(x, y-1)`), with
    out-of-bounds neighbours read as background. -/
def spec_neigh_values (img : PImg) (pixel : ℤ × ℤ) : List ℕ :=
  [ (pixel.1, pixel.2 - 1), (pixel.1 + 1, pixel.2 - 1), (pixel.1 + 1, pixel.2),
    (pixel.1 + 1, pixel.2 + 1), (pixel.1, pixel.2 + 1), (pixel.1 - 1, pixel.2 + 1),
    (pixel.1 - 1, pixel.2), (pixel.1 - 1, pixel.2 - 1) ].map (guarded_read img)

/-- The three removability conditions exactly as claim C4 states them, over a
    cyclic neighbour-value list: at least two foreground neighbours, at least
    two background neighbours, at most one foreground-to-background
    transition. -/
def removable_spec (sv : List ℕ) : Prop :=
  2 ≤ sv.count 0 ∧ 2 ≤ sv.count 255 ∧ segments_count sv ≤ 1

instance (sv : List ℕ) : Decidable (removable_spec sv) := by
  unfold removable_spec; exact inferInstance

/-- Intensity encoding of a foreground flag: foreground pixels read 0,
    background 255. -/
def bval (b : Bool) : ℕ := if b then 0 else 255

/-- Loop state of `Generator._split_points` (generator.py lines 211-215). -/
structure SplitState where
  cover_points : List (List ℚ)
  bit_pos : List (Option ℚ)
  cr_cover_points : List ℚ
  cr_bit_pos : Option ℚ
  cr_start : ℚ
deriving DecidableEq, Repr

/-- One iteration of the `for point in points` loop of `_split_points`
    (lines 216-225).  Python's `cr_cover_points[-1]` is modelled by
    `getLastD`; starting from a nonempty band the band list stays nonempty in
    both branches, so the default is never consulted. -/
def split_step (bit_size : ℚ) (st : SplitState) (point : ℚ) : SplitState :=
  let cr_bit_pos1 := if bit_size / 2 < point - st.cr_start ∧ st.cr_bit_pos = none
    then some (st.cr_cover_points.getLastD 0) else st.cr_bit_pos
  if bit_size < point - st.cr_start then
    { cover_points := st.cover_points ++ [st.cr_cover_points]
      bit_pos := st.bit_pos ++ [cr_bit_pos1]
      cr_cover_points := [point]
      cr_bit_pos := none
      cr_start := st.cr_cover_points.getLastD 0 }
  else
    { st with cr_cover_points := st.cr_cover_points ++ [point], cr_bit_pos := cr_bit_pos1 }

/-- The `for` loop of `_split_points` over the remaining input points. -/
def split_go (bit_size : ℚ) (st : SplitState) : List ℚ → SplitState
  | [] => st
  | point :: rest => split_go bit_size (split_step bit_size st point) rest

/-- Source `Generator._split_points` (lines 202-230).  The first input point
    never triggers either `>` comparison when `bit_size ≥ 0` (both differences
    are 0 there), so processing it just seeds the band with `points[0]`; with
    `bit_size < 0` the first iteration indexes `cr_cover_points[-1]` while the
    band is still empty and Python raises `IndexError` (modelled `none`), and
    an empty input raises on `points[0]` (also `none`). -/
def split_points (bit_size : ℚ) (points : List ℚ) :
    Option (List (List ℚ) × List (Option ℚ)) :=
  match points with
  | [] => none
  | point :: rest =>
    if bit_size < 0 then none
    else
      let st := split_go bit_size
        { cover_points := [], bit_pos := [], cr_cover_points := [point],
          cr_bit_pos := none, cr_start := point } rest
      let final_bit := match st.cr_bit_pos with
        | none => some (st.cr_cover_points.getLastD 0)
        | some b => some b
      some (st.cover_points ++ [st.cr_cover_points], st.bit_pos ++ [final_bit])

/-- Loop invariant of `_split_points` relating the state to the still
    unprocessed (strictly increasing) input `rest`: the current band is
    nonempty, strictly increasing, bounded by `bit_size` relative to its own
    first coordinate, the window start is at most the band's first coordinate,
    every closed band has spread at most `bit_size`, and everything in the
    current band precedes everything in `rest`. -/
def SplitInv (bit_size : ℚ) (st : SplitState) (rest : List ℚ) : Prop :=
  st.cr_cover_points ≠ [] ∧
  st.cr_cover_points.Pairwise (· < ·) ∧
  st.cr_start ≤ st.cr_cover_points.headD 0 ∧
  (∀ x ∈ st.cr_cover_points, x - st.cr_cover_points.headD 0 ≤ bit_size) ∧
  (∀ b ∈ st.cover_points, ∀ x ∈ b, ∀ y ∈ b, x - y ≤ bit_size) ∧
  (∀ x ∈ st.cr_cover_points, ∀ y ∈ rest, x < y) ∧
  rest.Pairwise (· < ·)

/-- A heightmap: the dense grid `heightmap_list[y][x]` (class `Heightmap`). -/
structure Heightmap where
  grid : List (List ℚ)
deriving DecidableEq, Repr

/-- Model of `Heightmap.__init__`: `len(heightmap_list[0])` raises `IndexError`
    on an empty list, and the fill loop reads `heightmap_list[y][x]` for every
    `x < len(row 0)`, raising when a later row is shorter than row 0; both
    failures are modelled as `none`. -/
def Heightmap.init (heightmap_list : List (List ℚ)) : Option Heightmap :=
  match heightmap_list with
  | [] => none
  | row0 :: _ =>
    if heightmap_list.all (fun row => decide (row0.length ≤ row.length))
    then some { grid := heightmap_list } else none

def Heightmap.nrows (self : Heightmap) : ℕ := self.grid.length

def Heightmap.ncols (self : Heightmap) : ℕ := (self.grid.headD []).length

/-- The `_heights[(x, y)]` dictionary value; the dictionary holds exactly the
    keys with `x < ncols` and `y < nrows`. -/
def Heightmap.height_at (self : Heightmap) (x y : ℕ) : ℚ :=
  (self.grid.getD y []).getD x 0

/-- Source `Heightmap.get_row`: iterates `x` over the stored columns and keeps
    the pairs whose key `(x, row)` is present, which for the iterated `x`
    happens iff `row` is a stored row index. -/
def Heightmap.get_row (self : Heightmap) (row : ℕ) : List (ℕ × ℚ) :=
  if row < self.nrows then
    (List.range self.ncols).map (fun x => (x, self.height_at x row))
  else []

/-- Source `Heightmap.get_column`, symmetric to `get_row`. -/
def Heightmap.get_column (self : Heightmap) (column : ℕ) : List (ℕ × ℚ) :=
  if column < self.ncols then
    (List.range self.nrows).map (fun y => (y, self.height_at column y))
  else []

/-- Python's ascending order on the `(coordinate, height)` tuples sorted by
    `points.sort()`. -/
def tuple_le (a b : ℕ × ℚ) : Prop := a.1 < b.1 ∨ (a.1 = b.1 ∧ a.2 ≤ b.2)

instance : DecidableRel tuple_le := fun a b => by unfold tuple_le; exact inferInstance

instance : IsTotal (ℕ × ℚ) tuple_le :=
  ⟨fun a b => by
    unfold tuple_le
    rcases lt_trichotomy a.1 b.1 with h | h | h
    · exact Or.inl (Or.inl h)
    · rcases le_total a.2 b.2 with h2 | h2
      · exact Or.inl (Or.inr ⟨h, h2⟩)
      · exact Or.inr (Or.inr ⟨h.symm, h2⟩)
    · exact Or.inr (Or.inl h)⟩

instance : IsTrans (ℕ × ℚ) tuple_le :=
  ⟨fun a b c hab hbc => by
    unfold tuple_le at *
    rcases hab with h1 | ⟨e1, l1⟩ <;> rcases hbc with h2 | ⟨e2, l2⟩
    · exact Or.inl (h1.trans h2)
    · exact Or.inl (e2 ▸ h1)
    · exact Or.inl (e1 ▸ h2)
    · exact Or.inr ⟨e1.trans e2, l1.trans l2⟩⟩

/-- The deduplication `while` loop of `Heightmap._maximize_points`
    (lines 127-132): whenever two consecutive entries share an x coordinate,
    `del points[cr_point]` removes the EARLIER one, keeping the later. -/
def maximize_loop (points : List (ℕ × ℚ)) (cr_point : ℕ) : List (ℕ × ℚ) :=
  if h : cr_point < points.length - 1 then
    if (points.getD cr_point (0, 0)).1 = (points.getD (cr_point + 1) (0, 0)).1 then
      maximize_loop (points.eraseIdx cr_point) cr_point
    else maximize_loop points (cr_point + 1)
  else points
termination_by points.length - cr_point
decreasing_by
  · have hlt : cr_point < points.length := by omega
    have := List.length_eraseIdx_add_one hlt
    omega
  · omega

/-- Source `Heightmap._maximize_points` (lines 123-133): concatenate the point
    lists, sort by Python's tuple order, then collapse runs of equal x.
    `insertionSort` yields exactly the list Python's stable sort produces:
    `tuple_le` is total, transitive and antisymmetric, so the sorted
    permutation of a given multiset is unique. -/
def maximize_points (list_of_points : List (List (ℕ × ℚ))) : List (ℕ × ℚ) :=
  maximize_loop (list_of_points.flatten.insertionSort tuple_le) 0

/-- Source `Heightmap.get_rows_max` (lines 80-88). -/
def Heightmap.get_rows_max (self : Heightmap) (rows : List ℕ) : List (ℕ × ℚ) :=
  maximize_points (rows.map (fun row => self.get_row row))

/-- Source `Heightmap.get_columns_max` (lines 90-98). -/
def Heightmap.get_columns_max (self : Heightmap) (columns : List ℕ) : List (ℕ × ℚ) :=
  maximize_points (columns.map (fun column => self.get_column column))

/-- Structural presentation of the `maximize_loop` pass: drop every entry whose
    immediate successor carries the same x coordinate. -/
def collapse : List (ℕ × ℚ) → List (ℕ × ℚ)
  | [] => []
  | [a] => [a]
  | a :: b :: t => if a.1 = b.1 then collapse (b :: t) else a :: collapse (b :: t)

/-- Constant `SPINDLE_SPEED` (generator.py line 11). -/
def SPINDLE_SPEED : ℕ := 10000

/-- Constant `HOVER_HEIGHT` (line 12). -/
def HOVER_HEIGHT : ℕ := 1

/-- Constant `VERTICAL_SPEED` (line 13). -/
def VERTICAL_SPEED : ℕ := 250

/-- Constant `HORIZONTAL_SPEED` (line 14). -/
def HORIZONTAL_SPEED : ℕ := 750

/-- `PRE_CODE.format(s_speed=10000, hover_height=1)` (lines 1-5, 23-25). -/
def pre_code_text : String := "G21\nM3 S10000\nG90\nG0 Z1\nG0 X0.000 Y0.000"

/-- `POST_CODE.format(hover_height=1)` (lines 6-9, 26). -/
def post_code_text : String := "G0 Z1\nG0 X0.000 Y0.000\nM5\nM30"

/-- Generator state (`Generator.__init__`, generator.py lines 17-30).  The
    field `mm_per_pixel` carries the source's millimetres-per-pixel ratio. -/
structure Generator where
  pre_code : String
  post_code : String
  move_code : String
  mm_per_pixel : ℚ
  min_move_dist : ℚ
  bit_size : ℚ
deriving DecidableEq, Repr

/-- Source `Generator.__init__`: stores the three numeric arguments and the two
    formatted code constants; it performs no validation of any argument. -/
def Generator.init (mm_per_pixel bit_size min_move_dist : ℚ) : Generator :=
  { pre_code := pre_code_text, post_code := post_code_text, move_code := "",
    mm_per_pixel := mm_per_pixel, min_move_dist := min_move_dist,
    bit_size := bit_size }

/-- Source `Generator._is_move_far` (lines 241-245). -/
def is_move_far (min_move_dist : ℚ) (pos_a pos_b : ℚ × ℚ) : Bool :=
  decide (min_move_dist ^ 2 ≤ (pos_a.1 - pos_b.1) ^ 2 + (pos_a.2 - pos_b.2) ^ 2)

/-- Source `Generator._is_move_far` in the all-integer case (Python ints). -/
def is_move_far_int (min_move_dist : ℤ) (pos_a pos_b : ℤ × ℤ) : Bool :=
  decide (min_move_dist ^ 2 ≤ (pos_a.1 - pos_b.1) ^ 2 + (pos_a.2 - pos_b.2) ^ 2)

/-- Source `Generator._get_mm_pos` (lines 247-256) on a Python `int` with an
    integer ratio: `round(pixel_pos * mm_ratio, 3)` applied to an `int` returns
    the integer unchanged, and `str` later renders it as plain decimal digits
    with no decimal point. -/
def get_mm_pos_int (mm_per_pixel pixel_pos : ℤ) : ℤ := pixel_pos * mm_per_pixel

/-- `_get_mm_pos` on a coordinate tuple of Python ints. -/
def get_mm_pos_pair (mm_per_pixel : ℤ) (p : ℤ × ℤ) : ℤ × ℤ :=
  (get_mm_pos_int mm_per_pixel p.1, get_mm_pos_int mm_per_pixel p.2)

/-- The command lines appended by `Generator.carve_path` (lines 121-144) in the
    all-integer case.  Each `+=` in the source appends one command followed by
    `"\n"`, so the emitted text is exactly these lines each terminated by a
    newline.  The fold state is (lines so far, `last_pos`, `cur_pos`); on an
    empty path the source would raise at `path.get_first_point()`, never
    reached by the claims below. -/
def carve_path_cmds (mm_per_pixel min_move_dist : ℤ) (path : List (ℤ × ℤ))
    (depth : ℤ) : List String :=
  let start := path.headD (0, 0)
  let last_pos0 := get_mm_pos_pair mm_per_pixel start
  let header := [ "G0 Z" ++ toString HOVER_HEIGHT,
    "G0 X" ++ toString last_pos0.1 ++ " Y" ++ toString last_pos0.2,
    "G1 Z-" ++ toString depth ++ " F" ++ toString VERTICAL_SPEED,
    "G1 F" ++ toString HORIZONTAL_SPEED ]
  let res := path.foldl (fun (acc : List String × (ℤ × ℤ) × (ℤ × ℤ)) point =>
    let cur_pos := get_mm_pos_pair mm_per_pixel point
    if is_move_far_int min_move_dist acc.2.1 cur_pos then
      (acc.1 ++ ["G1 X" ++ toString cur_pos.1 ++ " Y" ++ toString cur_pos.2],
        cur_pos, cur_pos)
    else (acc.1, acc.2.1, cur_pos)) (header, last_pos0, last_pos0)
  let res2 := if res.2.1 ≠ res.2.2 then
      res.1 ++ ["G1 X" ++ toString res.2.2.1 ++ " Y" ++ toString res.2.2.2]
    else res.1
  res2 ++ ["G0 Z" ++ toString HOVER_HEIGHT]

/-- Concatenation of command lines the way the source accumulates `path_code`:
    every line is followed by a newline. -/
def newline_join (cmds : List String) : String :=
  cmds.foldl (fun acc l => acc ++ l ++ "\n") ""

/-- The `path_code` string built by one `carve_path` body (the `single_pass`
    case runs the body once and appends it to `move_code`). -/
def carve_path_code (mm_per_pixel min_move_dist : ℤ) (path : List (ℤ × ℤ))
    (depth : ℤ) : String :=
  newline_join (carve_path_cmds mm_per_pixel min_move_dist path depth)

/-- Python `str.endswith("\n")`. -/
def endswith_nl (s : String) : Bool :=
  match s.data.getLast? with
  | some c => decide (c = '\n')
  | none => false

/-- Source `Generator.export` (lines 148-159): the text written to the output
    file.  (The source also stores the padded prologue and body back into the
    generator object; only the written text matters here.) -/
def Generator.export_text (self : Generator) : String :=
  (if endswith_nl self.pre_code then self.pre_code else self.pre_code ++ "\n") ++
  (if endswith_nl self.move_code then self.move_code else self.move_code ++ "\n") ++
  self.post_code

/-- The per-band emission filter of `Generator._carve_heightmap_pass`
    (lines 186-193): `last_pos` is initialised to `line[0][0]` and never
    reassigned inside the `for pos, height in line` loop, so every sample is
    compared against the band's FIRST carve-axis position.  A sample `(pos,
    height)` is emitted as `G1 <axis><pos> Z-<height>` iff this filter keeps
    it. -/
def carve_heightmap_line_emits (min_move_dist : ℚ) (line : List (ℚ × ℚ)) :
    List (ℚ × ℚ) :=
  let last_pos := (line.headD (0, 0)).1
  line.filter (fun ph => is_move_far min_move_dist (0, last_pos) (0, ph.1))

/-- Modelled from the spec: the emission rule claim C6 states, with the
    squared-distance threshold measured from the LAST EMITTED sample (the rule
    `carve_path` uses), for comparison against the code's behaviour. -/
def spec_line_emits (min_move_dist : ℚ) (line : List (ℚ × ℚ)) : List (ℚ × ℚ) :=
  (line.foldl (fun (acc : List (ℚ × ℚ) × ℚ) ph =>
    if is_move_far min_move_dist (0, acc.2) (0, ph.1) then (acc.1 ++ [ph], ph.1)
    else acc) ([], (line.headD (0, 0)).1)).1

/-- Source `Path.has_connection` (data_classes.py lines 517-539): whether the
    two points occur within `max_dist` positions of each other on the path,
    indices wrapping modulo the path length. -/
def path_has_connection (point_list : List Point) (point_a point_b : Point)
    (max_dist : ℕ) : Bool :=
  (List.range point_list.length).any (fun i =>
    let pi := point_list.getD i ⟨0, 0⟩
    if pi = point_a ∨ pi = point_b then
      (List.range' 1 max_dist).any (fun j =>
        let pj := point_list.getD ((i + j) % point_list.length) ⟨0, 0⟩
        decide ((pi = point_a ∧ pj = point_b) ∨ (pi = point_b ∧ pj = point_a)))
    else false)

/-- Source `Paths.has_connection` (lines 217-221). -/
def paths_has_connection (path_list : List (List Point)) (point_a point_b : Point)
    (max_dist : ℕ) : Bool :=
  path_list.any (fun path => path_has_connection path point_a point_b max_dist)

/-- The candidate condition of `Path.from_points` (lines 393-404): an
    8-neighbour of the walk's last vertex, not already on the path, whose
    connection to the last vertex is not already present (stride 2) in
    `explored_paths`. -/
def walk_cand_cond (explored_paths : Option (List (List Point)))
    (path : List Point) (point_exploring : Point) : Bool :=
  let last := path.getLastD ⟨0, 0⟩
  last.is_neighbor point_exploring && !(decide (point_exploring ∈ path)) &&
    (match explored_paths with
     | none => true
     | some ep => !(paths_has_connection ep last point_exploring 2))

/-- The `for j, point_exploring in enumerate(points)` loop (lines 392-410)
    building the `adjacents` and `neighbors` lists; when
    `return_affected_points` is unset the loop `break`s right after appending
    the first adjacent candidate. -/
def collect_cands (explored_paths : Option (List (List Point)))
    (return_affected_points : Bool) (path : List Point) :
    List Point → List Point → List Point → List Point × List Point
  | [], adjacents, neighbors => (adjacents, neighbors)
  | point_exploring :: rest, adjacents, neighbors =>
    if walk_cand_cond explored_paths path point_exploring then
      if (path.getLastD ⟨0, 0⟩).is_adjacent point_exploring then
        if return_affected_points then
          collect_cands explored_paths return_affected_points path rest
            (adjacents ++ [point_exploring]) neighbors
        else (adjacents ++ [point_exploring], neighbors)
      else
        collect_cands explored_paths return_affected_points path rest adjacents
          (neighbors ++ [point_exploring])
    else
      collect_cands explored_paths return_affected_points path rest adjacents neighbors

/-- Walk state: the growing `path` plus the `expandable_points` and
    `unexpandable_points` report lists (lines 384-388). -/
structure WalkState where
  path : List Point
  expandable_points : List Point
  unexpandable_points : List Point
deriving DecidableEq, Repr

/-- The `while found_connection` loop of `Path.from_points` (lines 389-427)
    WITHOUT the final loop-closure append; `Path.from_points` applies the
    closure test (lines 429-430) to the state this returns, which is
    equivalent because the loop exits right after `found_connection` turns
    false.  `fuel` only bounds the iteration count: every iteration but the
    last appends a point of `points` not already on the path, so
    `points.length + 1` iterations always reach the stuck case and the fuel-0
    branch is never taken when called from `Path.from_points`. -/
def walk_loop (points : List Point) (explored_paths : Option (List (List Point)))
    (return_affected_points : Bool) : ℕ → WalkState → WalkState
  | 0, st => st
  | fuel + 1, st =>
    let last := st.path.getLastD ⟨0, 0⟩
    let cands := collect_cands explored_paths return_affected_points st.path points [] []
    let adjacents := cands.1
    let neighbors := cands.2
    if adjacents.isEmpty && neighbors.isEmpty then
      if return_affected_points then
        { st with unexpandable_points := st.unexpandable_points ++ [last] }
      else st
    else
      let chosen := if adjacents.isEmpty then neighbors.getLastD ⟨0, 0⟩
        else adjacents.getLastD ⟨0, 0⟩
      let leftover := if adjacents.isEmpty then neighbors.dropLast
        else adjacents.dropLast ++ neighbors
      let st1 := { st with path := st.path ++ [chosen] }
      let st2 := if return_affected_points then
          if 0 < leftover.length then
            { st1 with expandable_points := st1.expandable_points ++ [last] }
          else
            { st1 with unexpandable_points := st1.unexpandable_points ++ [last] }
        else st1
      walk_loop points explored_paths return_affected_points fuel st2

/-- Source `Path.from_points` (data_classes.py lines 354-439), returning the
    walked path together with the two affected-point reports (Python returns
    the reports only when `return_affected_points` is set, and only then does
    it build them; returning empty lists otherwise loses nothing).  The
    `allow_loop` parameter is kept exactly as in the source signature.  With
    `start_point = None` Python takes `list(points)[0]`, raising on an empty
    set (the `headD` default is unreachable from `Paths.from_points`). -/
def Path.from_points (points : List Point) (start_point : Option Point)
    (explored_paths : Option (List (List Point))) (allow_loop : Bool)
    (return_affected_points : Bool) : List Point × List Point × List Point :=
  let s := match start_point with
    | some st => st
    | none => points.headD ⟨0, 0⟩
  let st := walk_loop points explored_paths return_affected_points
    (points.length + 1)
    { path := [s], expandable_points := [], unexpandable_points := [] }
  let final_path := if (st.path.getLastD ⟨0, 0⟩).is_neighbor s then st.path ++ [s]
    else st.path
  (final_path, st.expandable_points, st.unexpandable_points)

/-- Source `Paths.from_points` (data_classes.py lines 140-178): rejects
    `min_path_length < 2` with a `ValueError`, then walks from every point not
    yet marked unexpandable, collecting paths longer than one vertex, and
    finally filters by `min_path_length`. -/
def Paths.from_points (points : List Point) (min_path_length : ℤ) :
    Except String (List (List Point)) :=
  if min_path_length < 2 then
    Except.error "Parameter min_path_length must be at least 2"
  else
    let final := points.foldl
      (fun (acc : List (List Point) × List (ℤ × ℤ)) point =>
        if point.to_tuple ∈ acc.2 then acc
        else
          let r := Path.from_points points (some point) (some acc.1) true true
          let paths1 := if 1 < r.1.length then acc.1 ++ [r.1] else acc.1
          (paths1, acc.2 ++ r.2.2.map Point.to_tuple))
      ([], [])
    Except.ok (final.1.filter (fun path => decide (min_path_length ≤ (path.length : ℤ))))

/-- The initial thinning queue of `Points.from_image_trace` (lines 277-287):
    column-major scan (x outer, y inner) collecting removable line pixels. -/
def init_remove_queue (img : PImg) : List (ℤ × ℤ) :=
  (List.range img.width).flatMap (fun (x : ℕ) =>
    (List.range img.height).filterMap (fun (y : ℕ) =>
      if img.getpixel (x : ℤ) (y : ℤ) = 0 ∧ is_pixel_unneeded img ((x : ℤ), (y : ℤ)) then
        some ((x : ℤ), (y : ℤ))
      else none))

/-- The queue drain of `from_image_trace` (lines 289-316).  The queue and its
    dedup dictionary are kept in lockstep exactly as in the source; the
    neighbour scan order of lines 295-304 is the tuple order of
    `neigh_offsets`.  `fuel` bounds the number of pops;
    `9 * width * height + 1` always suffices: the initial queue holds at most
    width·height pixels, each of the at most width·height removals enqueues at
    most 8 neighbours, and every pop consumes one queue entry. -/
def thin_loop (fuel : ℕ) (img : PImg)
    (remove_queue remove_queue_dict : List (ℤ × ℤ)) : PImg :=
  match fuel, remove_queue with
  | _, [] => img
  | 0, _ :: _ => img
  | fuel + 1, cr_pixel :: rest =>
    let qd := remove_queue_dict.erase cr_pixel
    if is_pixel_unneeded img cr_pixel then
      let img1 := img.putpixel cr_pixel.1 cr_pixel.2 255
      let acc := (neigh_offsets cr_pixel).foldl
        (fun (acc : List (ℤ × ℤ) × List (ℤ × ℤ)) neigh =>
          if neigh ∉ acc.2 ∧ 0 ≤ neigh.1 ∧ neigh.1 < (img1.width : ℤ) ∧
              0 ≤ neigh.2 ∧ neigh.2 < (img1.height : ℤ) then
            if img1.getpixel neigh.1 neigh.2 = 0 ∧ is_pixel_unneeded img1 neigh then
              (acc.1 ++ [neigh], acc.2 ++ [neigh])
            else acc
          else acc) (rest, qd)
      thin_loop fuel img1 acc.1 acc.2
    else thin_loop fuel img rest qd

/-- The thinning pass of `Points.from_image_trace` applied to the mode-"1"
    working image (lines 277-316). -/
def thin_image (img : PImg) : PImg :=
  thin_loop (9 * img.width * img.height + 1) img (init_remove_queue img)
    (init_remove_queue img)

/-- The final pixel collection of `from_image_trace` (lines 318-323). -/
def collect_points (img : PImg) : List Point :=
  (List.range img.width).flatMap (fun (x : ℕ) =>
    (List.range img.height).filterMap (fun (y : ℕ) =>
      if img.getpixel (x : ℤ) (y : ℤ) = 0 then some (Point.mk (x : ℤ) (y : ℤ))
      else none))

/-- Source `Points.from_image_trace` (lines 266-323) with the caller's image
    threaded explicitly.  PIL's `convert` returns a fresh image object (the
    conversion itself is decoding-library territory, passed in here as
    `convert1`), whereas `putpixel` mutates its receiver in place — so when
    the input is already mode "1" the rebinding `pil_img = pil_img.convert`
    never runs and all thinning writes land in the caller's object, and
    otherwise they land in the fresh copy.  The second component of the result
    is the caller's image as it stands after the call. -/
def Points.from_image_trace (convert1 : PImg → PImg) (pil_img : PImg) :
    List Point × PImg :=
  let work := if pil_img.mode = "1" then pil_img else convert1 pil_img
  let final := thin_image work
  (collect_points final, if pil_img.mode = "1" then final else pil_img)

/- Theorems.  Helper lemmas come first, then one theorem per claim (with
   counterexamples and witnesses where required). -/

/-- Claim C2 counterexample: on coordinates [0,1,2,3,4,5] with bit diameter 2
    the splitter yields the cover bands [[0,1,2],[3,4],[5]] — the band-closing
    coordinate starts the next band and is NOT shared with the previous band —
    not the claimed [[0,1,2],[2,3,4],[4,5]]; the first two bands have no
    common sample.  (The probes [1,3,5] do match the claim.) -/
theorem c2_counterexample :
    split_points 2 [0, 1, 2, 3, 4, 5] =
      some ([[0, 1, 2], [3, 4], [5]], [some 1, some 3, some 5]) ∧
    ([[0, 1, 2], [3, 4], [5]] : List (List ℚ)) ≠ [[0, 1, 2], [2, 3, 4], [4, 5]] ∧
    List.inter ([0, 1, 2] : List ℚ) [3, 4] = [] :=
  ⟨by with_unfolding_all rfl, of_decide_eq_true (by with_unfolding_all rfl),
    by with_unfolding_all rfl⟩

/-- Claim C3 counterexample: with `mm_ratio = 1` (Python ints throughout)
    `round(x * 1, 3)` returns the integer unchanged and `"{}".format` renders
    it without any decimal point, so the single-pass carve of
    [(0,0),(10,0)] at depth 1 emits `G0 X0 Y0` and `G1 X10 Y0`; the command
    `G0 X0.000 Y0.000` claimed by the spec never appears in the body. -/
theorem c3_counterexample :
    carve_path_cmds 1 0 [(0, 0), (10, 0)] 1 =
      ["G0 Z1", "G0 X0 Y0", "G1 Z-1 F250", "G1 F750", "G1 X0 Y0", "G1 X10 Y0",
        "G0 Z1"] ∧
    "G0 X0.000 Y0.000" ∉ carve_path_cmds 1 0 [(0, 0), (10, 0)] 1 ∧
    "G1 X10.000 Y0.000" ∉ carve_path_cmds 1 0 [(0, 0), (10, 0)] 1 := by decide

/-- Claim C3 amended: X/Y coordinates are rounded to three decimal places and
    rendered with Python's default formatting (integers print as plain decimal
    digits); the single-pass carve of [(0,0),(10,0)] with mm_ratio=1, depth=1,
    bit_size=2 produces exactly the body below (the claimed commands appear in
    order in their unpadded form, plus the re-emitted first vertex `G1 X0 Y0`
    permitted by the zero `min_move_dist` threshold). -/
theorem c3_amended :
    carve_path_code 1 0 [(0, 0), (10, 0)] 1 =
      "G0 Z1\nG0 X0 Y0\nG1 Z-1 F250\nG1 F750\nG1 X0 Y0\nG1 X10 Y0\nG0 Z1\n" := by
  decide

/-- Claim C5 counterexample: a 0-by-2 image (zero pixels) yields the grid
    [[],[]] and `Heightmap.__init__` succeeds on it, and `Generator.__init__`
    performs no validation at all — constructing with mm_ratio = 0 and
    bit_size = -1 succeeds and stores the values. -/
theorem c5_counterexample :
    (Heightmap.init [[], []]).isSome = true ∧
    Generator.init 0 (-1) 0 =
      { pre_code := pre_code_text, post_code := post_code_text, move_code := "",
        mm_per_pixel := 0, min_move_dist := 0, bit_size := -1 } := by
  exact ⟨rfl, rfl⟩

/-- Claim C5 amended: `Paths.from_points` raises exactly when
    `min_path_length < 2`; `Heightmap.__init__` fails exactly on an empty grid
    (zero-height image) or a ragged grid with a row shorter than row 0; and
    `Generator.__init__` performs no validation — it succeeds on every input,
    including non-positive bit sizes and ratios, storing the arguments
    unchanged. -/
theorem c5_amended :
    (∀ (points : List Point) (m : ℤ),
      Paths.from_points points m =
          Except.error "Parameter min_path_length must be at least 2" ↔ m < 2) ∧
    (∀ hl : List (List ℚ), Heightmap.init hl = none ↔
      (hl = [] ∨ ∃ row ∈ hl, row.length < (hl.headD []).length)) ∧
    (∀ mmr bs mmd : ℚ, Generator.init mmr bs mmd =
      { pre_code := pre_code_text, post_code := post_code_text, move_code := "",
        mm_per_pixel := mmr, min_move_dist := mmd, bit_size := bs }) := by
  refine ⟨fun points m => ?_, fun hl => ?_, fun mmr bs mmd => rfl⟩
  · by_cases hm : m < 2
    · simp [Paths.from_points, hm]
    · simp [Paths.from_points, hm]
  · cases hl with
    | nil => simp [Heightmap.init]
    | cons row0 tl =>
      simp only [Heightmap.init]
      split
      · rename_i hall
        simp only [List.all_eq_true, decide_eq_true_eq] at hall
        simp only [List.headD_cons]
        constructor
        · intro h; exact absurd h (by simp)
        · rintro (h | ⟨row, hrow, hlen⟩)
          · exact absurd h (by simp)
          · exact absurd (hall row hrow) (by omega)
      · rename_i hall
        simp only [List.all_eq_true, decide_eq_true_eq] at hall
        push_neg at hall
        obtain ⟨row, hrow, hlen⟩ := hall
        simp only [List.headD_cons]
        exact iff_of_true trivial (Or.inr ⟨row, hrow, hlen⟩)

/-- Claim C6: in `_carve_heightmap_pass` the variable `last_pos` is initialised
    to the band's first carve position and never reassigned, so a sample
    qualifies by its distance from the band START, not from the last emitted
    sample.  With min_move_dist = 2 on the band [(0,·),(1,·),(2,·),(3,·)] the
    code emits the samples at 2 AND 3 (both at least 2 from position 0),
    whereas the claimed last-emitted rule — the one `carve_path` really uses —
    would drop position 3 (distance 1 from the emitted sample at 2). -/
theorem c6_emission_measured_from_band_start :
    carve_heightmap_line_emits 2 [(0, 0), (1, 0), (2, 0), (3, 0)] =
      [(2, 0), (3, 0)] ∧
    spec_line_emits 2 [(0, 0), (1, 0), (2, 0), (3, 0)] = [(2, 0)] :=
  ⟨by with_unfolding_all rfl, by with_unfolding_all rfl⟩

/-- Claim C8 counterexample: `export` appends a newline to the prologue and to
    the body when missing, but writes the epilogue as-is; `POST_CODE` ends in
    `M30` with no trailing newline, so the epilogue — and hence the whole
    file — is not newline-terminated. -/
theorem c8_counterexample :
    Generator.export_text (Generator.init 1 2 0) =
      pre_code_text ++ "\n" ++ "\n" ++ post_code_text ∧
    endswith_nl post_code_text = false ∧
    endswith_nl (Generator.export_text (Generator.init 1 2 0)) = false := by decide

/-- Padding a string with a newline unless it already ends in one always
    yields a newline-terminated string. -/
theorem endswith_nl_pad (s : String) :
    endswith_nl (if endswith_nl s then s else s ++ "\n") = true := by
  by_cases h : endswith_nl s = true
  · rw [if_pos h]; exact h
  · rw [if_neg h]
    show endswith_nl (s ++ "\n") = true
    unfold endswith_nl
    have : (s ++ "\n").data = s.data ++ ['\n'] := rfl
    rw [this, List.getLast?_concat]
    simp

/-- Claim C8 amended: `export` writes prologue, then body, then epilogue; the
    prologue and body are newline-terminated (a newline is appended when
    missing) but the epilogue is written verbatim and does not end in a
    newline. -/
theorem c8_amended (pre move : String) (mmr mmd bs : ℚ) :
    Generator.export_text ⟨pre, post_code_text, move, mmr, mmd, bs⟩ =
      (if endswith_nl pre then pre else pre ++ "\n") ++
        (if endswith_nl move then move else move ++ "\n") ++ post_code_text ∧
    endswith_nl (if endswith_nl pre then pre else pre ++ "\n") = true ∧
    endswith_nl (if endswith_nl move then move else move ++ "\n") = true ∧
    endswith_nl post_code_text = false :=
  ⟨rfl, endswith_nl_pad pre, endswith_nl_pad move, by decide⟩

/-- On a binary image every neighbour read (out-of-bounds included) yields 0 or
    255. -/
theorem guarded_read_vals {img : PImg} (hb : img.binary) (n : ℤ × ℤ) :
    guarded_read img n = 0 ∨ guarded_read img n = 255 := by
  unfold guarded_read
  split
  · exact Or.inr rfl
  · unfold PImg.getpixel
    by_cases hy : n.2.toNat < img.data.length
    · rw [List.getD_eq_getElem _ _ hy]
      by_cases hx : n.1.toNat < (img.data[n.2.toNat]).length
      · rw [List.getD_eq_getElem _ _ hx]
        exact hb _ (List.getElem_mem hy) _ (List.getElem_mem hx)
      · exact Or.inl (List.getD_eq_default _ _ (by omega))
    · have hrow : img.data.getD n.2.toNat [] = [] :=
        List.getD_eq_default _ _ (by omega)
      rw [hrow]
      exact Or.inl rfl

/-- A value known to be 0 or 255 is the encoding of its own foreground flag. -/
theorem eq_bval {v : ℕ} (h : v = 0 ∨ v = 255) : v = bval (decide (v = 0)) := by
  rcases h with rfl | rfl <;> decide

/-- Exhaustive check over the 2^8 neighbour configurations: the source's
    removability test in its scan order agrees with the spec's three
    conditions in the spec's cyclic order N, NE, E, SE, S, SW, W, NW — the two
    orders traverse the same cycle in opposite directions, and the number of
    foreground-to-background transitions of a cycle is direction-invariant. -/
theorem unneeded_core : ∀ bS bSE bE bNE bN bNW bW bSW : Bool,
    unneeded_of_values
        [bval bS, bval bSE, bval bE, bval bNE, bval bN, bval bNW, bval bW,
          bval bSW] = true ↔
      removable_spec
        [bval bN, bval bNE, bval bE, bval bSE, bval bS, bval bSW, bval bW,
          bval bNW] := by decide

/-- Claim C4: for every binary image and in-bounds pixel, `is_pixel_unneeded`
    returns True iff all three of the spec's conditions hold, with
    out-of-bounds neighbours counted as background: at least two of the eight
    neighbours are foreground, at least two are background, and the cyclic
    neighbour sequence N, NE, E, SE, S, SW, W, NW has at most one
    foreground-to-background transition. -/
theorem c4_is_pixel_unneeded_iff (img : PImg) (hb : img.binary) (p : ℤ × ℤ)
    (_hin : 0 ≤ p.1 ∧ p.1 < (img.width : ℤ) ∧ 0 ≤ p.2 ∧ p.2 < (img.height : ℤ)) :
    is_pixel_unneeded img p = true ↔ removable_spec (spec_neigh_values img p) := by
  rw [show is_pixel_unneeded img p = unneeded_of_values
      [guarded_read img (p.1, p.2 + 1), guarded_read img (p.1 + 1, p.2 + 1),
        guarded_read img (p.1 + 1, p.2), guarded_read img (p.1 + 1, p.2 - 1),
        guarded_read img (p.1, p.2 - 1), guarded_read img (p.1 - 1, p.2 - 1),
        guarded_read img (p.1 - 1, p.2), guarded_read img (p.1 - 1, p.2 + 1)]
    from rfl]
  rw [show spec_neigh_values img p =
      [guarded_read img (p.1, p.2 - 1), guarded_read img (p.1 + 1, p.2 - 1),
        guarded_read img (p.1 + 1, p.2), guarded_read img (p.1 + 1, p.2 + 1),
        guarded_read img (p.1, p.2 + 1), guarded_read img (p.1 - 1, p.2 + 1),
        guarded_read img (p.1 - 1, p.2), guarded_read img (p.1 - 1, p.2 - 1)]
    from rfl]
  rw [eq_bval (guarded_read_vals hb (p.1, p.2 + 1)),
    eq_bval (guarded_read_vals hb (p.1 + 1, p.2 + 1)),
    eq_bval (guarded_read_vals hb (p.1 + 1, p.2)),
    eq_bval (guarded_read_vals hb (p.1 + 1, p.2 - 1)),
    eq_bval (guarded_read_vals hb (p.1, p.2 - 1)),
    eq_bval (guarded_read_vals hb (p.1 - 1, p.2 - 1)),
    eq_bval (guarded_read_vals hb (p.1 - 1, p.2)),
    eq_bval (guarded_read_vals hb (p.1 - 1, p.2 + 1))]
  exact unneeded_core _ _ _ _ _ _ _ _

/-- Claim C4 witness: the removability test agrees with the spec's three
    conditions on the centre of a concrete 3-by-3 plus-shaped binary image. -/
theorem c4_witness :
    PImg.binary ⟨"1", 3, 3, [[255, 0, 255], [0, 0, 0], [255, 0, 255]]⟩ ∧
    (is_pixel_unneeded ⟨"1", 3, 3, [[255, 0, 255], [0, 0, 0], [255, 0, 255]]⟩
        (1, 1) = true ↔
      removable_spec (spec_neigh_values
        ⟨"1", 3, 3, [[255, 0, 255], [0, 0, 0], [255, 0, 255]]⟩ (1, 1))) :=
  ⟨by decide, c4_is_pixel_unneeded_iff _ (by decide) (1, 1) (by decide)⟩

/-- The default-valued head of a strictly increasing list bounds its members
    from below. -/
theorem pairwise_lt_headD_le {l : List ℚ} (hs : l.Pairwise (· < ·)) {y : ℚ}
    (hy : y ∈ l) : l.headD 0 ≤ y := by
  cases l with
  | nil => cases hy
  | cons a t =>
    rcases List.mem_cons.mp hy with rfl | h
    · exact le_refl _
    · exact le_of_lt ((List.pairwise_cons.mp hs).1 _ h)

/-- The default-valued last element of a nonempty list is a member. -/
theorem getLastD_mem_of_ne_nil {α : Type _} (l : List α) (d : α) (h : l ≠ []) :
    l.getLastD d ∈ l := by
  have he : l.getLastD d = l.getLast h := by
    cases l with
    | nil => exact absurd rfl h
    | cons a t => simp [List.getLastD_eq_getLast?, List.getLast?_eq_getLast]
  rw [he]
  exact List.getLast_mem h

/-- Heads of appends with a nonempty left part. -/
theorem headD_append_left {α : Type _} (l m : List α) (d : α) (h : l ≠ []) :
    (l ++ m).headD d = l.headD d := by
  cases l with
  | nil => exact absurd rfl h
  | cons a t => rfl

/-- One `_split_points` iteration preserves the invariant and appends the
    consumed point to the flattened output. -/
theorem split_step_inv {bit_size : ℚ} (hbit : 0 ≤ bit_size) {st : SplitState}
    {p : ℚ} {rest : List ℚ} (h : SplitInv bit_size st (p :: rest)) :
    SplitInv bit_size (split_step bit_size st p) rest ∧
    (split_step bit_size st p).cover_points.flatten ++
        (split_step bit_size st p).cr_cover_points =
      st.cover_points.flatten ++ st.cr_cover_points ++ [p] := by
  obtain ⟨hne, hsort, hstart, hbound, hcov, hbefore, hrest⟩ := h
  have hp_lt : ∀ x ∈ st.cr_cover_points, x < p := fun x hx =>
    hbefore x hx p (List.mem_cons_self _ _)
  have hrest1 : ∀ y ∈ rest, p < y := (List.pairwise_cons.mp hrest).1
  have hrest2 : rest.Pairwise (· < ·) := (List.pairwise_cons.mp hrest).2
  have hlast_lt : st.cr_cover_points.getLastD 0 < p :=
    hp_lt _ (getLastD_mem_of_ne_nil _ _ hne)
  simp only [split_step]
  by_cases hclose : bit_size < p - st.cr_start
  · rw [if_pos hclose]
    constructor
    · refine ⟨by simp, by simp, ?_, ?_, ?_, ?_, hrest2⟩
      · simpa using le_of_lt hlast_lt
      · intro x hx
        simp only [List.mem_singleton] at hx
        subst hx
        simpa using hbit
      · intro b hb
        rcases List.mem_append.mp hb with hb | hb
        · exact hcov b hb
        · simp only [List.mem_singleton] at hb
          subst hb
          intro x hx y hy
          have h1 := hbound x hx
          have h2 := pairwise_lt_headD_le hsort hy
          linarith
      · intro x hx y hy
        simp only [List.mem_singleton] at hx
        subst hx
        exact hrest1 y hy
    · simp [List.flatten_append, List.append_assoc]
  · rw [if_neg hclose]
    have hle : p - st.cr_start ≤ bit_size := not_lt.mp hclose
    constructor
    · refine ⟨by simp, ?_, ?_, ?_, hcov, ?_, hrest2⟩
      · rw [List.pairwise_append]
        exact ⟨hsort, List.pairwise_singleton _ _, fun x hx y hy => by
          simp only [List.mem_singleton] at hy
          subst hy
          exact hp_lt x hx⟩
      · rw [headD_append_left _ _ _ hne]
        exact hstart
      · intro x hx
        rw [headD_append_left _ _ _ hne]
        rcases List.mem_append.mp hx with hx | hx
        · exact hbound x hx
        · simp only [List.mem_singleton] at hx
          subst hx
          linarith
      · intro x hx y hy
        rcases List.mem_append.mp hx with hx | hx
        · exact hbefore x hx y (List.mem_cons_of_mem _ hy)
        · simp only [List.mem_singleton] at hx
          subst hx
          exact hrest1 y hy
    · simp [List.append_assoc]

/-- Running the `_split_points` loop from an invariant state: the final state
    satisfies the invariant and its flattened bands extend the initial ones by
    exactly the consumed input. -/
theorem split_go_inv {bit_size : ℚ} (hbit : 0 ≤ bit_size) :
    ∀ (rest : List ℚ) (st : SplitState), SplitInv bit_size st rest →
      SplitInv bit_size (split_go bit_size st rest) [] ∧
      (split_go bit_size st rest).cover_points.flatten ++
          (split_go bit_size st rest).cr_cover_points =
        st.cover_points.flatten ++ st.cr_cover_points ++ rest
  | [], st, h => ⟨h, by simp [split_go]⟩
  | p :: rest, st, h => by
    have hs := split_step_inv hbit h
    have ih := split_go_inv hbit rest (split_step bit_size st p) hs.1
    refine ⟨ih.1, ?_⟩
    show (split_go bit_size (split_step bit_size st p) rest).cover_points.flatten ++
        (split_go bit_size (split_step bit_size st p) rest).cr_cover_points =
      st.cover_points.flatten ++ st.cr_cover_points ++ (p :: rest)
    rw [ih.2, hs.2]
    simp [List.append_assoc]

/-- Claim C7: for a strictly increasing coordinate list and a positive bit
    diameter, every input coordinate appears in at least one cover band, and
    within each band any two coordinates are at most the bit diameter apart
    (max minus min is at most D). -/
theorem c7_split_points_coverage (bit_size : ℚ) (points : List ℚ)
    (hpts : points.Pairwise (· < ·)) (hbit : 0 < bit_size)
    (cover : List (List ℚ)) (probes : List (Option ℚ))
    (hsplit : split_points bit_size points = some (cover, probes)) :
    (∀ c ∈ points, ∃ band ∈ cover, c ∈ band) ∧
    (∀ band ∈ cover, ∀ x ∈ band, ∀ y ∈ band, x - y ≤ bit_size) := by
  cases points with
  | nil => simp [split_points] at hsplit
  | cons p rest =>
    simp only [split_points] at hsplit
    rw [if_neg (not_lt.mpr hbit.le)] at hsplit
    have h0 : SplitInv bit_size
        { cover_points := [], bit_pos := [], cr_cover_points := [p],
          cr_bit_pos := none, cr_start := p } rest := by
      refine ⟨by simp, by simp, le_refl _, ?_, by simp, ?_, (List.pairwise_cons.mp hpts).2⟩
      · intro x hx
        simp only [List.mem_singleton] at hx
        subst hx
        simpa using hbit.le
      · intro x hx y hy
        simp only [List.mem_singleton] at hx
        subst hx
        exact (List.pairwise_cons.mp hpts).1 y hy
    obtain ⟨⟨gne, gsort, _, gbound, gcov, _, _⟩, gflat⟩ :=
      split_go_inv hbit.le rest _ h0
    simp only [Option.some.injEq, Prod.mk.injEq] at hsplit
    obtain ⟨hcover, _⟩ := hsplit
    have hflat : cover.flatten = p :: rest := by
      rw [← hcover]
      rw [List.flatten_append]
      simp only [List.flatten_cons, List.flatten_nil, List.append_nil]
      simpa using gflat
    constructor
    · intro c hc
      have hc2 : c ∈ cover.flatten := by rw [hflat]; exact hc
      exact List.mem_flatten.mp hc2
    · intro band hb x hx y hy
      rw [← hcover] at hb
      rcases List.mem_append.mp hb with hb | hb
      · exact gcov band hb x hx y hy
      · simp only [List.mem_singleton] at hb
        subst hb
        have h1 := gbound x hx
        have h2 := pairwise_lt_headD_le gsort hy
        linarith

/-- Claim C7 witness: coverage and band spread for the concrete coordinates
    [0,1,2,3,4,5] with bit diameter 2. -/
theorem c7_witness :
    (([0, 1, 2, 3, 4, 5] : List ℚ).Pairwise (· < ·)) ∧ ((0 : ℚ) < 2) ∧
    ((∀ c ∈ ([0, 1, 2, 3, 4, 5] : List ℚ),
        ∃ band ∈ [[(0 : ℚ), 1, 2], [3, 4], [5]], c ∈ band) ∧
      (∀ band ∈ [[(0 : ℚ), 1, 2], [3, 4], [5]], ∀ x ∈ band, ∀ y ∈ band,
        x - y ≤ 2)) :=
  ⟨by decide, by decide,
    c7_split_points_coverage 2 [0, 1, 2, 3, 4, 5] (by decide) (by decide)
      [[0, 1, 2], [3, 4], [5]] [some 1, some 3, some 5]
      (by with_unfolding_all rfl)⟩

/-- Claim C2 amended: for every strictly increasing coordinate list and
    positive bit diameter the cover bands produced by `_split_points` are
    pairwise disjoint — the band-closing coordinate starts the next band and
    no sample is shared; in particular for [0,1,2,3,4,5] with D = 2 the cover
    bands are [[0,1,2],[3,4],[5]] with probes [1,3,5]. -/
theorem c2_amended (bit_size : ℚ) (points : List ℚ)
    (hpts : points.Pairwise (· < ·)) (hbit : 0 < bit_size)
    (cover : List (List ℚ)) (probes : List (Option ℚ))
    (hsplit : split_points bit_size points = some (cover, probes)) :
    cover.Pairwise List.Disjoint ∧
    split_points 2 [0, 1, 2, 3, 4, 5] =
      some ([[0, 1, 2], [3, 4], [5]], [some 1, some 3, some 5]) := by
  refine ⟨?_, by with_unfolding_all rfl⟩
  cases points with
  | nil => simp [split_points] at hsplit
  | cons p rest =>
    simp only [split_points] at hsplit
    rw [if_neg (not_lt.mpr hbit.le)] at hsplit
    have h0 : SplitInv bit_size
        { cover_points := [], bit_pos := [], cr_cover_points := [p],
          cr_bit_pos := none, cr_start := p } rest := by
      refine ⟨by simp, by simp, le_refl _, ?_, by simp, ?_, (List.pairwise_cons.mp hpts).2⟩
      · intro x hx
        simp only [List.mem_singleton] at hx
        subst hx
        simpa using hbit.le
      · intro x hx y hy
        simp only [List.mem_singleton] at hx
        subst hx
        exact (List.pairwise_cons.mp hpts).1 y hy
    obtain ⟨_, gflat⟩ := split_go_inv hbit.le rest _ h0
    simp only [Option.some.injEq, Prod.mk.injEq] at hsplit
    obtain ⟨hcover, _⟩ := hsplit
    have hflat : cover.flatten = p :: rest := by
      rw [← hcover]
      rw [List.flatten_append]
      simp only [List.flatten_cons, List.flatten_nil, List.append_nil]
      simpa using gflat
    have hnodup : cover.flatten.Nodup := by
      rw [hflat]
      exact hpts.imp ne_of_lt
    exact (List.nodup_flatten.mp hnodup).2

/-- Claim C2 amended witness: disjointness of the concrete bands for
    [0,1,2,3,4,5] with D = 2. -/
theorem c2_amended_witness :
    ([[(0 : ℚ), 1, 2], [3, 4], [5]] : List (List ℚ)).Pairwise List.Disjoint ∧
    split_points 2 [0, 1, 2, 3, 4, 5] =
      some ([[0, 1, 2], [3, 4], [5]], [some 1, some 3, some 5]) :=
  c2_amended 2 [0, 1, 2, 3, 4, 5] (by decide) (by decide) [[0, 1, 2], [3, 4], [5]]
    [some 1, some 3, some 5] (by with_unfolding_all rfl)

/-- `collapse` only keeps elements of its input. -/
theorem collapse_subset : ∀ l : List (ℕ × ℚ), collapse l ⊆ l
  | [] => by simp [collapse]
  | [a] => by simp [collapse]
  | a :: b :: t => by
    intro x hx
    rw [collapse] at hx
    split at hx
    · exact List.mem_cons_of_mem _ (collapse_subset (b :: t) hx)
    · rcases List.mem_cons.mp hx with rfl | hx
      · exact List.mem_cons_self _ _
      · exact List.mem_cons_of_mem _ (collapse_subset (b :: t) hx)

/-- The tuple order is monotone in the first component. -/
theorem tuple_le_fst {a b : ℕ × ℚ} (h : tuple_le a b) : a.1 ≤ b.1 := by
  rcases h with h | ⟨h, _⟩
  · exact le_of_lt h
  · exact le_of_eq h

/-- Lists shorter than two elements are unchanged by `collapse`. -/
theorem collapse_short : ∀ (l : List (ℕ × ℚ)), l.length ≤ 1 → collapse l = l
  | [], _ => rfl
  | [_], _ => rfl
  | _ :: _ :: _, h => by simp at h

/-- Membership in `collapse` of a tuple-sorted list: exactly the entries whose
    height is maximal among the entries sharing their x coordinate. -/
theorem collapse_mem : ∀ (l : List (ℕ × ℚ)), l.Pairwise tuple_le → ∀ (q : ℕ × ℚ),
    (q ∈ collapse l ↔ q ∈ l ∧ ∀ b ∈ l, b.1 = q.1 → b.2 ≤ q.2)
  | [], _, q => by simp [collapse]
  | [a], _, q => by
    simp only [collapse]
    constructor
    · intro hq
      refine ⟨hq, ?_⟩
      intro b hb _
      rcases List.mem_singleton.mp hb with rfl
      rcases List.mem_singleton.mp hq with rfl
      exact le_refl _
    · rintro ⟨hq, _⟩
      exact hq
  | a :: b :: t, hs, q => by
    have ha : ∀ y ∈ b :: t, tuple_le a y := (List.pairwise_cons.mp hs).1
    have hab : tuple_le a b := ha b (List.mem_cons_self _ _)
    have hs' : (b :: t).Pairwise tuple_le := (List.pairwise_cons.mp hs).2
    have hfst : ∀ y ∈ b :: t, b.1 ≤ y.1 := by
      intro y hy
      rcases List.mem_cons.mp hy with rfl | hy
      · exact le_refl _
      · exact tuple_le_fst ((List.pairwise_cons.mp hs').1 y hy)
    rw [collapse]
    split
    · rename_i heq
      rw [collapse_mem (b :: t) hs' q]
      constructor
      · rintro ⟨hq, hbound⟩
        refine ⟨List.mem_cons_of_mem _ hq, ?_⟩
        intro x hx hx1
        rcases List.mem_cons.mp hx with rfl | hx
        · have hb2 : b.2 ≤ q.2 := hbound b (List.mem_cons_self _ _) (by omega)
          rcases hab with h | ⟨_, h⟩
          · exact absurd heq (ne_of_lt h)
          · exact le_trans h hb2
        · exact hbound x hx hx1
      · rintro ⟨hq, hbound⟩
        have hbound' : ∀ x ∈ b :: t, x.1 = q.1 → x.2 ≤ q.2 := fun x hx =>
          hbound x (List.mem_cons_of_mem _ hx)
        rcases List.mem_cons.mp hq with rfl | hq
        · have ha2b : q.2 ≤ b.2 := by
            rcases hab with h | ⟨_, h⟩
            · exact absurd heq (ne_of_lt h)
            · exact h
          have hb2a : b.2 ≤ q.2 :=
            hbound b (List.mem_cons_of_mem _ (List.mem_cons_self _ _)) heq.symm
          have hqb : q = b := Prod.ext heq (le_antisymm ha2b hb2a)
          exact ⟨by rw [hqb]; exact List.mem_cons_self _ _, hbound'⟩
        · exact ⟨hq, hbound'⟩
    · rename_i hne
      have hafst : a.1 < b.1 := by
        rcases hab with h | ⟨h, _⟩
        · exact h
        · exact absurd h hne
      constructor
      · intro hx
        rcases List.mem_cons.mp hx with rfl | hx
        · refine ⟨List.mem_cons_self _ _, ?_⟩
          intro x hxx hx1
          rcases List.mem_cons.mp hxx with rfl | hxx
          · exact le_refl _
          · have h2 := hfst x hxx
            omega
        · have hq := (collapse_mem (b :: t) hs' q).mp hx
          refine ⟨List.mem_cons_of_mem _ hq.1, ?_⟩
          intro x hxx hx1
          rcases List.mem_cons.mp hxx with rfl | hxx
          · have h2 := hfst q hq.1
            omega
          · exact hq.2 x hxx hx1
      · rintro ⟨hq, hbound⟩
        rcases List.mem_cons.mp hq with rfl | hq
        · exact List.mem_cons_self _ _
        · refine List.mem_cons_of_mem _
            ((collapse_mem (b :: t) hs' q).mpr ⟨hq, ?_⟩)
          intro x hxx hx1
          exact hbound x (List.mem_cons_of_mem _ hxx) hx1

/-- `collapse` of a tuple-sorted list is strictly increasing in x. -/
theorem collapse_pairwise : ∀ (l : List (ℕ × ℚ)), l.Pairwise tuple_le →
    (collapse l).Pairwise (fun a b => a.1 < b.1)
  | [], _ => by simp [collapse]
  | [a], _ => by simp [collapse]
  | a :: b :: t, hs => by
    have ha : ∀ y ∈ b :: t, tuple_le a y := (List.pairwise_cons.mp hs).1
    have hab : tuple_le a b := ha b (List.mem_cons_self _ _)
    have hs' : (b :: t).Pairwise tuple_le := (List.pairwise_cons.mp hs).2
    have hfst : ∀ y ∈ b :: t, b.1 ≤ y.1 := by
      intro y hy
      rcases List.mem_cons.mp hy with rfl | hy
      · exact le_refl _
      · exact tuple_le_fst ((List.pairwise_cons.mp hs').1 y hy)
    rw [collapse]
    split
    · exact collapse_pairwise (b :: t) hs'
    · rename_i hne
      have hafst : a.1 < b.1 := by
        rcases hab with h | ⟨h, _⟩
        · exact h
        · exact absurd h hne
      rw [List.pairwise_cons]
      refine ⟨?_, collapse_pairwise (b :: t) hs'⟩
      intro y hy
      have h2 := hfst y (collapse_subset _ hy)
      omega

/-- The `while` loop of `_maximize_points` settles the prefix before the
    cursor and collapses the remainder. -/
theorem maximize_loop_eq (l : List (ℕ × ℚ)) (cr : ℕ) :
    maximize_loop l cr = l.take cr ++ collapse (l.drop cr) := by
  rw [maximize_loop]
  split
  · rename_i hlt
    have hcr : cr < l.length := by omega
    have hcr1 : cr + 1 < l.length := by omega
    have hdrop : l.drop cr = l[cr] :: l.drop (cr + 1) := List.drop_eq_getElem_cons hcr
    have hdrop1 : l.drop (cr + 1) = l[cr + 1] :: l.drop (cr + 2) :=
      List.drop_eq_getElem_cons hcr1
    have hgd : l.getD cr (0, 0) = l[cr] := List.getD_eq_getElem _ _ hcr
    have hgd1 : l.getD (cr + 1) (0, 0) = l[cr + 1] := List.getD_eq_getElem _ _ hcr1
    split
    · rename_i heq
      rw [hgd, hgd1] at heq
      rw [maximize_loop_eq (l.eraseIdx cr) cr]
      have htl : (l.take cr).length = cr := by
        rw [List.length_take]
        omega
      rw [List.eraseIdx_eq_take_drop_succ l cr, List.take_left' htl,
        List.drop_left' htl]
      congr 1
      conv_rhs => rw [hdrop, hdrop1]
      rw [collapse, if_pos heq, ← hdrop1]
    · rename_i hne
      rw [hgd, hgd1] at hne
      rw [maximize_loop_eq l (cr + 1)]
      have htake : l.take (cr + 1) = l.take cr ++ [l[cr]] := by
        rw [← List.take_concat_get l cr hcr, List.concat_eq_append]
      rw [htake]
      conv_rhs => rw [hdrop, hdrop1]
      rw [collapse, if_neg hne, ← hdrop1, List.append_assoc,
        List.singleton_append]
  · rename_i hge
    rw [collapse_short]
    · exact (List.take_append_drop cr l).symm
    · rw [List.length_drop]
      omega
termination_by l.length - cr
decreasing_by
  · omega
  · rw [List.eraseIdx_eq_take_drop_succ, List.length_append, List.length_take,
      List.length_drop]
    omega

/-- Membership in `_maximize_points`: exactly the concatenated entries whose
    height is maximal among entries sharing their x coordinate. -/
theorem maximize_points_mem (L : List (List (ℕ × ℚ))) (q : ℕ × ℚ) :
    q ∈ maximize_points L ↔
      q ∈ L.flatten ∧ ∀ b ∈ L.flatten, b.1 = q.1 → b.2 ≤ q.2 := by
  unfold maximize_points
  rw [maximize_loop_eq]
  simp only [List.take_zero, List.drop_zero, List.nil_append]
  rw [collapse_mem _ (List.sorted_insertionSort tuple_le _) q]
  constructor
  · rintro ⟨hq, hbound⟩
    exact ⟨(List.mem_insertionSort tuple_le).mp hq, fun b hb =>
      hbound b ((List.mem_insertionSort tuple_le).mpr hb)⟩
  · rintro ⟨hq, hbound⟩
    exact ⟨(List.mem_insertionSort tuple_le).mpr hq, fun b hb =>
      hbound b ((List.mem_insertionSort tuple_le).mp hb)⟩

/-- `_maximize_points` yields strictly increasing x coordinates. -/
theorem maximize_points_pairwise (L : List (List (ℕ × ℚ))) :
    (maximize_points L).Pairwise (fun a b => a.1 < b.1) := by
  unfold maximize_points
  rw [maximize_loop_eq]
  simp only [List.take_zero, List.drop_zero, List.nil_append]
  exact collapse_pairwise _ (List.sorted_insertionSort tuple_le _)

/-- `_maximize_points` on cross-section lines: a pair is in the output iff its
    coordinate is in range and its height is the maximum over the given lines
    at that coordinate. -/
theorem maximize_lines_mem (n : ℕ) (f : ℕ → ℕ → ℚ) (ls : List ℕ) (q : ℕ × ℚ) :
    q ∈ maximize_points
        (ls.map (fun i => (List.range n).map (fun j => (j, f j i)))) ↔
      q.1 < n ∧ (ls.map (fun i => f q.1 i)).maximum = (q.2 : WithBot ℚ) := by
  rw [maximize_points_mem, List.maximum_eq_coe_iff]
  have hmem : ∀ r : ℕ × ℚ,
      r ∈ (ls.map (fun i => (List.range n).map (fun j => (j, f j i)))).flatten ↔
        ∃ i ∈ ls, r.1 < n ∧ r.2 = f r.1 i := by
    intro r
    rw [List.mem_flatten]
    constructor
    · rintro ⟨lb, hlb, hr⟩
      obtain ⟨i, hi, rfl⟩ := List.mem_map.mp hlb
      obtain ⟨j, hj, rfl⟩ := List.mem_map.mp hr
      exact ⟨i, hi, List.mem_range.mp hj, rfl⟩
    · rintro ⟨i, hi, hr1, hr2⟩
      refine ⟨(List.range n).map (fun j => (j, f j i)),
        List.mem_map.mpr ⟨i, hi, rfl⟩, ?_⟩
      refine List.mem_map.mpr ⟨r.1, List.mem_range.mpr hr1, ?_⟩
      rw [← hr2]
  constructor
  · rintro ⟨hq, hbound⟩
    obtain ⟨i, hi, hq1, hq2⟩ := (hmem q).mp hq
    refine ⟨hq1, List.mem_map.mpr ⟨i, hi, hq2.symm⟩, ?_⟩
    intro v hv
    obtain ⟨i2, hi2, rfl⟩ := List.mem_map.mp hv
    exact hbound (q.1, f q.1 i2) ((hmem _).mpr ⟨i2, hi2, hq1, rfl⟩) rfl
  · rintro ⟨hq1, hq2, hbound⟩
    obtain ⟨i, hi, hfi⟩ := List.mem_map.mp hq2
    constructor
    · refine (hmem q).mpr ⟨i, hi, hq1, hfi.symm⟩
    · intro b hb hb1
      obtain ⟨i2, hi2, _, hb2⟩ := (hmem b).mp hb
      rw [hb2, hb1]
      exact hbound _ (List.mem_map.mpr ⟨i2, hi2, rfl⟩)

/-- Claim C1: for every heightmap, list of valid row indices and list of valid
    column indices, `get_rows_max` returns one pair per x coordinate of the
    grid (provided some row was given), sorted strictly ascending by x, whose
    height is the maximum of H[x, y] over the given rows — and symmetrically
    for `get_columns_max`. -/
theorem c1_get_rows_max_is_maximum (hm : Heightmap)
    (ys : List ℕ) (hys : ∀ y ∈ ys, y < hm.nrows)
    (xs : List ℕ) (hxs : ∀ x ∈ xs, x < hm.ncols) :
    ((hm.get_rows_max ys).Pairwise (fun a b => a.1 < b.1) ∧
      ∀ q : ℕ × ℚ, q ∈ hm.get_rows_max ys ↔
        q.1 < hm.ncols ∧
          (ys.map (fun y => hm.height_at q.1 y)).maximum = (q.2 : WithBot ℚ)) ∧
    ((hm.get_columns_max xs).Pairwise (fun a b => a.1 < b.1) ∧
      ∀ q : ℕ × ℚ, q ∈ hm.get_columns_max xs ↔
        q.1 < hm.nrows ∧
          (xs.map (fun x => hm.height_at x q.1)).maximum = (q.2 : WithBot ℚ)) := by
  have hrows : ys.map (fun row => hm.get_row row) =
      ys.map (fun i => (List.range hm.ncols).map (fun j => (j, hm.height_at j i))) := by
    apply List.map_congr_left
    intro y hy
    unfold Heightmap.get_row
    rw [if_pos (hys y hy)]
  have hcols : xs.map (fun column => hm.get_column column) =
      xs.map (fun i => (List.range hm.nrows).map (fun j => (j, hm.height_at i j))) := by
    apply List.map_congr_left
    intro x hx
    unfold Heightmap.get_column
    rw [if_pos (hxs x hx)]
  refine ⟨⟨?_, fun q => ?_⟩, ⟨?_, fun q => ?_⟩⟩
  · unfold Heightmap.get_rows_max
    rw [hrows]
    exact maximize_points_pairwise _
  · unfold Heightmap.get_rows_max
    rw [hrows]
    exact maximize_lines_mem hm.ncols (fun j i => hm.height_at j i) ys q
  · unfold Heightmap.get_columns_max
    rw [hcols]
    exact maximize_points_pairwise _
  · unfold Heightmap.get_columns_max
    rw [hcols]
    exact maximize_lines_mem hm.nrows (fun j i => hm.height_at i j) xs q

/-- Claim C1 witness: the 1-by-2 heightmap [[1/2],[1]] with rows [0,1] and
    columns [0]. -/
theorem c1_witness :
    ((Heightmap.get_rows_max ⟨[[1/2], [1]]⟩ [0, 1]).Pairwise
        (fun a b => a.1 < b.1) ∧
      ∀ q : ℕ × ℚ, q ∈ Heightmap.get_rows_max ⟨[[1/2], [1]]⟩ [0, 1] ↔
        q.1 < Heightmap.ncols ⟨[[1/2], [1]]⟩ ∧
          (([0, 1] : List ℕ).map
            (fun y => Heightmap.height_at ⟨[[1/2], [1]]⟩ q.1 y)).maximum =
              (q.2 : WithBot ℚ)) ∧
    ((Heightmap.get_columns_max ⟨[[1/2], [1]]⟩ [0]).Pairwise
        (fun a b => a.1 < b.1) ∧
      ∀ q : ℕ × ℚ, q ∈ Heightmap.get_columns_max ⟨[[1/2], [1]]⟩ [0] ↔
        q.1 < Heightmap.nrows ⟨[[1/2], [1]]⟩ ∧
          (([0] : List ℕ).map
            (fun x => Heightmap.height_at ⟨[[1/2], [1]]⟩ x q.1)).maximum =
              (q.2 : WithBot ℚ)) :=
  c1_get_rows_max_is_maximum ⟨[[1/2], [1]]⟩ [0, 1] (by decide) [0] (by decide)

/-- Unfolded form of `Point.is_neighbor`. -/
theorem is_neighbor_iff {a b : Point} :
    a.is_neighbor b = true ↔ |a.x - b.x| ≤ 1 ∧ |a.y - b.y| ≤ 1 ∧ a ≠ b := by
  unfold Point.is_neighbor
  split
  · rename_i h
    simp [h]
  · rename_i h
    simp [h]

/-- The 8-neighbour relation is symmetric. -/
theorem is_neighbor_symm {a b : Point} (h : a.is_neighbor b = true) :
    b.is_neighbor a = true := by
  rw [is_neighbor_iff] at h ⊢
  refine ⟨?_, ?_, h.2.2.symm⟩
  · rw [abs_sub_comm]
    exact h.1
  · rw [abs_sub_comm]
    exact h.2.1

/-- Every point in either candidate list collected by the walker satisfies the
    candidate condition. -/
theorem collect_cands_sound (explored_paths : Option (List (List Point)))
    (rap : Bool) (path : List Point) :
    ∀ (pts adjacents neighbors : List Point),
      (∀ c ∈ adjacents, walk_cand_cond explored_paths path c = true) →
      (∀ c ∈ neighbors, walk_cand_cond explored_paths path c = true) →
      (∀ c ∈ (collect_cands explored_paths rap path pts adjacents neighbors).1,
        walk_cand_cond explored_paths path c = true) ∧
      (∀ c ∈ (collect_cands explored_paths rap path pts adjacents neighbors).2,
        walk_cand_cond explored_paths path c = true)
  | [], adjacents, neighbors, ha, hn => ⟨ha, hn⟩
  | p :: rest, adjacents, neighbors, ha, hn => by
    rw [collect_cands]
    split
    · rename_i hcond
      split
      · split
        · refine collect_cands_sound explored_paths rap path rest _ _ ?_ hn
          intro c hc
          rcases List.mem_append.mp hc with hc | hc
          · exact ha c hc
          · rcases List.mem_singleton.mp hc with rfl
            exact hcond
        · refine ⟨?_, hn⟩
          intro c hc
          rcases List.mem_append.mp hc with hc | hc
          · exact ha c hc
          · rcases List.mem_singleton.mp hc with rfl
            exact hcond
      · refine collect_cands_sound explored_paths rap path rest _ _ ha ?_
        intro c hc
        rcases List.mem_append.mp hc with hc | hc
        · exact hn c hc
        · rcases List.mem_singleton.mp hc with rfl
          exact hcond
    · exact collect_cands_sound explored_paths rap path rest adjacents neighbors ha hn

/-- The candidate condition includes being an 8-neighbour of the walk's last
    vertex. -/
theorem walk_cand_cond_neighbor {explored_paths : Option (List (List Point))}
    {path : List Point} {c : Point}
    (h : walk_cand_cond explored_paths path c = true) :
    (path.getLastD ⟨0, 0⟩).is_neighbor c = true := by
  unfold walk_cand_cond at h
  simp only [Bool.and_eq_true] at h
  exact h.1.1

/-- The walk loop only ever appends to the path. -/
theorem walk_loop_path_extends (points : List Point)
    (explored_paths : Option (List (List Point))) (rap : Bool) :
    ∀ (fuel : ℕ) (st : WalkState),
      ∃ ext, (walk_loop points explored_paths rap fuel st).path = st.path ++ ext
  | 0, st => ⟨[], by simp [walk_loop]⟩
  | fuel + 1, st => by
    rcases hA : collect_cands explored_paths rap st.path points [] [] with
      ⟨adjacents, neighbors⟩
    simp only [walk_loop, hA]
    by_cases he : adjacents.isEmpty && neighbors.isEmpty
    · rw [if_pos he]
      split
      · exact ⟨[], by simp⟩
      · exact ⟨[], by simp⟩
    · rw [if_neg he]
      have key : ∀ st2 : WalkState, (∃ c, st2.path = st.path ++ [c]) →
          ∃ ext, (walk_loop points explored_paths rap fuel st2).path =
            st.path ++ ext := by
        rintro st2 ⟨c, hst2⟩
        obtain ⟨ext, hext⟩ := walk_loop_path_extends points explored_paths rap fuel st2
        rw [hext, hst2, List.append_assoc]
        exact ⟨[c] ++ ext, rfl⟩
      apply key
      repeat' split
      all_goals exact ⟨_, rfl⟩

/-- The walk loop preserves the path invariant `consecutive vertices are
    8-neighbours` (and nonemptiness): every appended vertex passes the
    candidate condition against the current last vertex. -/
theorem walk_loop_chain (points : List Point)
    (explored_paths : Option (List (List Point))) (rap : Bool) :
    ∀ (fuel : ℕ) (st : WalkState), st.path ≠ [] →
      List.Chain' (fun a b => a.is_neighbor b = true) st.path →
      (walk_loop points explored_paths rap fuel st).path ≠ [] ∧
      List.Chain' (fun a b => a.is_neighbor b = true)
        (walk_loop points explored_paths rap fuel st).path
  | 0, st, hne, hch => ⟨hne, hch⟩
  | fuel + 1, st, hne, hch => by
    rcases hA : collect_cands explored_paths rap st.path points [] [] with
      ⟨adjacents, neighbors⟩
    have hsound := collect_cands_sound explored_paths rap st.path points [] []
      (fun c hc => absurd hc (List.not_mem_nil c))
      (fun c hc => absurd hc (List.not_mem_nil c))
    rw [hA] at hsound
    simp only [walk_loop, hA]
    by_cases he : adjacents.isEmpty && neighbors.isEmpty
    · rw [if_pos he]
      split
      · exact ⟨hne, hch⟩
      · exact ⟨hne, hch⟩
    · rw [if_neg he]
      have hchosen : walk_cand_cond explored_paths st.path
          (if adjacents.isEmpty then neighbors.getLastD ⟨0, 0⟩
            else adjacents.getLastD ⟨0, 0⟩) = true := by
        by_cases hae : adjacents.isEmpty
        · rw [if_pos hae]
          have hnb : neighbors ≠ [] := by
            intro h0
            exact he (by simp [hae, h0])
          exact hsound.2 _ (getLastD_mem_of_ne_nil _ _ hnb)
        · rw [if_neg hae]
          have hna : adjacents ≠ [] := by
            intro h0
            exact hae (by simp [h0])
          exact hsound.1 _ (getLastD_mem_of_ne_nil _ _ hna)
      have key : ∀ st2 : WalkState,
          st2.path = st.path ++ [if adjacents.isEmpty then neighbors.getLastD ⟨0, 0⟩
            else adjacents.getLastD ⟨0, 0⟩] →
          (walk_loop points explored_paths rap fuel st2).path ≠ [] ∧
          List.Chain' (fun a b => a.is_neighbor b = true)
            (walk_loop points explored_paths rap fuel st2).path := by
        intro st2 hst2
        apply walk_loop_chain points explored_paths rap fuel st2
        · rw [hst2]
          simp
        · rw [hst2, List.chain'_append]
          refine ⟨hch, List.chain'_singleton _, ?_⟩
          intro x hx y hy
          have hy2 : y = (if adjacents.isEmpty then neighbors.getLastD ⟨0, 0⟩
              else adjacents.getLastD ⟨0, 0⟩) := by
            simp only [List.head?_cons, Option.mem_some_iff] at hy
            exact hy.symm
          have hx2 : x = st.path.getLastD ⟨0, 0⟩ := by
            rw [List.getLastD_eq_getLast?]
            rcases hgl : st.path.getLast? with _ | z
            · rw [hgl] at hx
              simp at hx
            · rw [hgl] at hx
              simp only [Option.mem_some_iff] at hx
              simp [hx]
          rw [hx2, hy2]
          exact walk_cand_cond_neighbor hchosen
      apply key
      repeat' split
      all_goals rfl

/-- Claim C9: `Path.from_points` returns identical output whether `allow_loop`
    is true or false — the flag is never consulted — and loop closure happens
    unconditionally: whenever the walk stops with exactly two vertices, the
    start point is re-appended, yielding a three-vertex loop. -/
theorem c9_allow_loop_never_consulted (points : List Point) (s : Point)
    (explored_paths : Option (List (List Point))) (rap al al' : Bool) :
    Path.from_points points (some s) explored_paths al rap =
      Path.from_points points (some s) explored_paths al' rap ∧
    ((walk_loop points explored_paths rap (points.length + 1)
        { path := [s], expandable_points := [], unexpandable_points := [] }).path.length
          = 2 →
      ∃ t, (walk_loop points explored_paths rap (points.length + 1)
          { path := [s], expandable_points := [], unexpandable_points := [] }).path
            = [s, t] ∧
        (Path.from_points points (some s) explored_paths al rap).1 = [s, t, s]) := by
  constructor
  · rfl
  · intro h2
    obtain ⟨ext, hext⟩ := walk_loop_path_extends points explored_paths rap
      (points.length + 1)
      { path := [s], expandable_points := [], unexpandable_points := [] }
    rcases ext with _ | ⟨t, ext2⟩
    · rw [hext] at h2
      simp at h2
    rcases ext2 with _ | ⟨u, ext3⟩
    · have hWp : (walk_loop points explored_paths rap (points.length + 1)
          { path := [s], expandable_points := [], unexpandable_points := [] }).path
            = [s, t] := by
        rw [hext]
        rfl
      refine ⟨t, hWp, ?_⟩
      have hchain := walk_loop_chain points explored_paths rap (points.length + 1)
        { path := [s], expandable_points := [], unexpandable_points := [] }
        (by simp) (List.chain'_singleton _)
      rw [hWp] at hchain
      have hst : s.is_neighbor t = true := (List.chain'_cons.mp hchain.2).1
      have hfinal : (Path.from_points points (some s) explored_paths al rap).1 =
          if ((walk_loop points explored_paths rap (points.length + 1)
              { path := [s], expandable_points := [],
                unexpandable_points := [] }).path.getLastD ⟨0, 0⟩).is_neighbor s
          then (walk_loop points explored_paths rap (points.length + 1)
              { path := [s], expandable_points := [],
                unexpandable_points := [] }).path ++ [s]
          else (walk_loop points explored_paths rap (points.length + 1)
              { path := [s], expandable_points := [],
                unexpandable_points := [] }).path := rfl
      rw [hfinal, hWp]
      rw [show ([s, t].getLastD ⟨0, 0⟩) = t from rfl]
      rw [if_pos (is_neighbor_symm hst)]
      rfl
    · rw [hext] at h2
      simp [List.length_append] at h2

/-- Claim C9 witness: on the two-point set [(0,0),(1,1)] the walk stops after
    two vertices, the output is the same for both `allow_loop` values, and the
    path is closed into the three-vertex loop [(0,0),(1,1),(0,0)]. -/
theorem c9_witness :
    Path.from_points [⟨0, 0⟩, ⟨1, 1⟩] (some ⟨0, 0⟩) none true false =
      Path.from_points [⟨0, 0⟩, ⟨1, 1⟩] (some ⟨0, 0⟩) none false false ∧
    (Path.from_points [⟨0, 0⟩, ⟨1, 1⟩] (some ⟨0, 0⟩) none true false).1 =
      [⟨0, 0⟩, ⟨1, 1⟩, ⟨0, 0⟩] := by
  have h := c9_allow_loop_never_consulted [⟨0, 0⟩, ⟨1, 1⟩] ⟨0, 0⟩ none false true false
  refine ⟨h.1, ?_⟩
  obtain ⟨t, ht, hp⟩ := h.2 (by decide)
  have hW : (walk_loop [⟨0, 0⟩, ⟨1, 1⟩] none false ([(⟨0, 0⟩ : Point), ⟨1, 1⟩].length + 1)
      { path := [⟨0, 0⟩], expandable_points := [], unexpandable_points := [] }).path =
      [⟨0, 0⟩, ⟨1, 1⟩] := by decide
  rw [hW] at ht
  have ht2 : t = ⟨1, 1⟩ := by
    have := List.cons.inj ht
    exact (List.cons.inj this.2).1.symm
  rw [ht2] at hp
  exact hp

/-- The final collection pass keeps exactly the in-bounds line pixels. -/
theorem collect_points_mem (img : PImg) (x y : ℕ) (hx : x < img.width)
    (hy : y < img.height) :
    Point.mk x y ∈ collect_points img ↔ img.getpixel x y = 0 := by
  unfold collect_points
  rw [List.mem_flatMap]
  constructor
  · rintro ⟨x2, hx2, hmem⟩
    obtain ⟨y2, hy2, heq⟩ := List.mem_filterMap.mp hmem
    split at heq
    · rename_i hpix
      have h1 : (x2 : ℤ) = (x : ℤ) ∧ (y2 : ℤ) = (y : ℤ) := by
        have := Option.some.inj heq
        exact ⟨congrArg Point.x this, congrArg Point.y this⟩
      have hx3 : x2 = x := by exact_mod_cast h1.1
      have hy3 : y2 = y := by exact_mod_cast h1.2
      rw [hx3, hy3] at hpix
      exact hpix
    · cases heq
  · intro hpix
    refine ⟨x, List.mem_range.mpr hx, List.mem_filterMap.mpr ⟨y, List.mem_range.mpr hy, ?_⟩⟩
    rw [if_pos hpix]

/-- Claim C10: when the image handed to `from_image_trace` is already mode
    "1", the thinning mutates the caller's image object in place, so after the
    call the caller's image is the thinned image and holds line pixels exactly
    at the returned skeleton points; an image in any other mode is converted
    to a fresh copy first and the caller's image is left unchanged. -/
theorem c10_from_image_trace_in_place (convert1 : PImg → PImg) (img : PImg) :
    (img.mode = "1" →
      (Points.from_image_trace convert1 img).2 = thin_image img ∧
      ∀ x y : ℕ, x < (thin_image img).width → y < (thin_image img).height →
        ((thin_image img).getpixel x y = 0 ↔
          Point.mk x y ∈ (Points.from_image_trace convert1 img).1)) ∧
    (img.mode ≠ "1" → (Points.from_image_trace convert1 img).2 = img) := by
  constructor
  · intro h1
    simp only [Points.from_image_trace]
    rw [if_pos h1, if_pos h1]
    refine ⟨rfl, ?_⟩
    intro x y hx hy
    exact (collect_points_mem (thin_image img) x y hx hy).symm
  · intro h2
    simp only [Points.from_image_trace]
    rw [if_neg h2]

/-- Claim C10 witness: a 1-by-1 mode-"1" image whose single pixel survives
    thinning, and a 1-by-1 mode-"L" image left untouched. -/
theorem c10_witness :
    (Points.from_image_trace id ⟨"1", 1, 1, [[0]]⟩).2 =
      thin_image ⟨"1", 1, 1, [[0]]⟩ ∧
    ((thin_image ⟨"1", 1, 1, [[0]]⟩).getpixel ((0 : ℕ) : ℤ) ((0 : ℕ) : ℤ) = 0 ↔
      Point.mk ((0 : ℕ) : ℤ) ((0 : ℕ) : ℤ) ∈
        (Points.from_image_trace id ⟨"1", 1, 1, [[0]]⟩).1) ∧
    (Points.from_image_trace id ⟨"L", 1, 1, [[7]]⟩).2 = ⟨"L", 1, 1, [[7]]⟩ := by
  refine ⟨?_, ?_, ?_⟩
  · exact ((c10_from_image_trace_in_place id ⟨"1", 1, 1, [[0]]⟩).1 rfl).1
  · exact ((c10_from_image_trace_in_place id ⟨"1", 1, 1, [[0]]⟩).1 rfl).2 0 0
      (by decide) (by decide)
  · exact (c10_from_image_trace_in_place id ⟨"L", 1, 1, [[7]]⟩).2 (by decide)
